import Mathlib

/-!
Verification of the check-apphash log relayer.

The development shallowly embeds the commit-line extractor (`parseCommitLog`)
and the per-height root reconciliation loop of the tm worker.  The current
revision of the program (the one with `consistentRecords` and
`knownRootHashesString`, in which the chain-restart branch is commented out)
is embedded as `tmStep`/`tmRun`; the older revision kept in `main.go`, whose
live chain-restart branch indexes `prev[0]` and `prev[1]`, is embedded
separately as `mainStep`/`mainRun`.

Go strings are Lean `String`s; the Go `map[int][]RootHashRecord` is an
association list with the map's lookup/update semantics (the program never
iterates over the map); Go `int` heights and transaction counts originate
from `(\d+)` capture groups, hence are non-negative, and are modelled as
`Nat` with the 64-bit signed bound enforced where `strconv.Atoi` enforces it.
-/

/-- One node's report for one block, the Go struct `LogData`:
`Height`, `Hash`, `Root`, `NumTxs`, `PodName`. -/
structure LogData where
  height : Nat
  hash : String
  root : String
  numTxs : Nat
  podName : String
  deriving DecidableEq, Repr

/-- The Go struct `RootHashRecord`: `PodName`, `Root`. -/
structure RootHashRecord where
  podName : String
  root : String
  deriving DecidableEq, Repr

/-! ## The record extractor (`parseCommitLog`)

The Go code matches the regular expression
`finalizing commit of block\s+module=consensus height=(\d+) hash=([0-9a-fA-F]+) root=([0-9a-fA-F]+) num_txs=(\d+)`
anywhere in the payload (leftmost match).  All quantified subpatterns are
followed by a character outside their class, so the backtracking-free
maximal-munch matcher below computes exactly the regexp's leftmost match
and its four capture groups. -/

/-- Go's `\s` character class `[\t\n\f\r ]`. -/
def goIsSpace (c : Char) : Bool :=
  c = '\t' || c = '\n' || c = '\x0C' || c = '\r' || c = ' '

/-- Go's `\d` character class `[0-9]`. -/
def goIsDigit (c : Char) : Bool :=
  decide (48 ≤ c.toNat) && decide (c.toNat ≤ 57)

/-- The character class `[0-9a-fA-F]` used for the `hash` and `root` groups. -/
def goIsHexDigit (c : Char) : Bool :=
  goIsDigit c || (decide (97 ≤ c.toNat) && decide (c.toNat ≤ 102)) ||
    (decide (65 ≤ c.toNat) && decide (c.toNat ≤ 70))

/-- The literal marker text opening the pattern. -/
def commitMarker : List Char := "finalizing commit of block".toList

/-- The literal between the whitespace run and the height group. -/
def litHeight : List Char := "module=consensus height=".toList

/-- The literal between the height and hash groups. -/
def litHash : List Char := " hash=".toList

/-- The literal between the hash and root groups. -/
def litRoot : List Char := " root=".toList

/-- The literal between the root and num_txs groups. -/
def litNumTxs : List Char := " num_txs=".toList

/-- Match a literal; on success return the remaining input. -/
def matchLit : List Char → List Char → Option (List Char)
  | [], l => some l
  | _ :: _, [] => none
  | p :: ps, c :: cs => if p = c then matchLit ps cs else none

/-- Split off the maximal leading run of characters satisfying `p`. -/
def spanP (p : Char → Bool) : List Char → List Char × List Char
  | [] => ([], [])
  | c :: cs =>
    if p c then ((c :: (spanP p cs).1, (spanP p cs).2)) else ([], c :: cs)

/-- Match one-or-more characters satisfying `p` (a `+`-quantified class),
returning the group and the remaining input. -/
def takeWhile1 (p : Char → Bool) (l : List Char) : Option (List Char × List Char) :=
  if (spanP p l).1.isEmpty then none else some (spanP p l)

/-- The four capture groups of the commit-line pattern. -/
structure CommitGroups where
  heightDigits : List Char
  hashHex : List Char
  rootHex : List Char
  numTxsDigits : List Char
  deriving DecidableEq, Repr

/-- Match the whole commit-line pattern at the start of `l`. -/
def matchCommitAt (l : List Char) : Option CommitGroups :=
  (matchLit commitMarker l).bind fun r1 =>
  (takeWhile1 goIsSpace r1).bind fun ws =>
  (matchLit litHeight ws.2).bind fun r2 =>
  (takeWhile1 goIsDigit r2).bind fun hd =>
  (matchLit litHash hd.2).bind fun r3 =>
  (takeWhile1 goIsHexDigit r3).bind fun hx =>
  (matchLit litRoot hx.2).bind fun r4 =>
  (takeWhile1 goIsHexDigit r4).bind fun rt =>
  (matchLit litNumTxs rt.2).bind fun r5 =>
  (takeWhile1 goIsDigit r5).map fun nd =>
  { heightDigits := hd.1, hashHex := hx.1, rootHex := rt.1, numTxsDigits := nd.1 }

/-- `regexp.FindStringSubmatch`: the leftmost match of the pattern. -/
def findCommitMatch : List Char → Option CommitGroups
  | [] => none
  | c :: rest =>
    match matchCommitAt (c :: rest) with
    | some g => some g
    | none => findCommitMatch rest

/-- Numeric value of a decimal digit string. -/
def digitsVal (l : List Char) : Nat :=
  l.foldl (fun a c => a * 10 + (c.toNat - 48)) 0

/-- The largest Go `int` (64-bit) value. -/
def maxGoInt : Nat := 9223372036854775807

/-- Model of Go `strconv.Atoi` restricted to the nonempty decimal-digit
strings produced by the `(\d+)` capture groups: the numeric value when it
fits in a 64-bit signed `int`, and failure (Go's `ErrRange`) otherwise. -/
def goAtoiDigits (l : List Char) : Option Nat :=
  if digitsVal l ≤ maxGoInt then some (digitsVal l) else none

/-- The extractor's failure cases: the regexp did not match, or a numeric
field did not parse as a Go `int` (`parsing height` / `parsing num_txs`). -/
inductive ParseErr where
  | noMatch
  | invalidHeight
  | invalidNumTxs
  deriving DecidableEq, Repr

deriving instance DecidableEq for Except

/-- The Go function `parseCommitLog(podName, logEntry)`. -/
def parseCommitLog (podName logEntry : String) : Except ParseErr LogData :=
  match findCommitMatch logEntry.toList with
  | none => .error .noMatch
  | some g =>
    match goAtoiDigits g.heightDigits with
    | none => .error .invalidHeight
    | some height =>
      match goAtoiDigits g.numTxsDigits with
      | none => .error .invalidNumTxs
      | some numTxs =>
        .ok { height := height, hash := String.mk g.hashHex, root := String.mk g.rootHex,
              numTxs := numTxs, podName := podName }

/-! ## The root reconciliation engine (tm worker loop, current revision) -/

/-- The Go `map[int][]RootHashRecord` (`rootCache`), with the map's
lookup/update semantics; the program never iterates over it. -/
abbrev Cache := List (Nat × List RootHashRecord)

/-- Map lookup `rootCache[height]` (with its `exists` flag as `Option`). -/
def cacheFind : Cache → Nat → Option (List RootHashRecord)
  | [], _ => none
  | (h, recs) :: rest, k => if h = k then some recs else cacheFind rest k

/-- Map update `rootCache[height] = v`. -/
def cacheSet : Cache → Nat → List RootHashRecord → Cache
  | [], k, v => [(k, v)]
  | (h, recs) :: rest, k, v =>
    if h = k then (h, v) :: rest else (h, recs) :: cacheSet rest k v

/-- The records stored for a height (`[]` when the key is absent). -/
def getAt (c : Cache) (h : Nat) : List RootHashRecord :=
  (cacheFind c h).getD []

/-- The `RootHashRecord{PodName, Root}` derived from an event. -/
def mkRecord (e : LogData) : RootHashRecord :=
  { podName := e.podName, root := e.root }

/-- The Go function `consistentRecords(current, records)`: `true` iff no
stored record's root differs from the incoming one. -/
def consistentRecords (current : RootHashRecord) (records : List RootHashRecord) : Bool :=
  if records.isEmpty then true
  else records.all fun r => current.root == r.root

/-- The Go function `knownRootHashesString(records)`. -/
def knownRootHashesString (records : List RootHashRecord) : String :=
  records.foldl (fun s r => s ++ r.podName ++ ": " ++ r.root ++ "\n") ""

/-- The `err_str` the engine builds on a divergence: the block line joined
with the dump of the cached records. -/
def mismatchMsg (height : Nat) (prev : List RootHashRecord) : String :=
  "ROOT MISMATCH DETECTED AT BLOCK " ++ Nat.repr height ++ "\n" ++ knownRootHashesString prev

/-- The observable emissions of one loop iteration: the per-event
`log.Print` status line, the every-1000-heights Discord progress notice,
and the fatal Discord divergence alert. -/
inductive EngineOutput where
  | statusLine (podName : String) (height : Nat) (root : String)
  | progressNotice (podName : String) (height : Nat) (root : String)
  | divergenceAlert (msg : String)
  deriving DecidableEq, Repr

/-- Recognise the fatal divergence alert among the outputs. -/
def isDivAlert : EngineOutput → Bool
  | .divergenceAlert _ => true
  | _ => false

/-- The progress notice posted when `commitLog.Height%1000 == 0`. -/
def progressOutputs (e : LogData) : List EngineOutput :=
  if e.height % 1000 == 0 then [.progressNotice e.podName e.height e.root] else []

/-- Result of running the engine: final cache, emissions in order, and
`halted = some errStr` when `log.Fatal(err_str)` terminated the process
(with a non-zero exit status). -/
structure StepResult where
  state : Cache
  outputs : List EngineOutput
  halted : Option String
  deriving DecidableEq, Repr

/-- One iteration of the tm worker loop on an already-extracted event:
status line and modulus notice first, then the cache lookup, the
`consistentRecords` check, and either the fatal alert or the append. -/
def tmStep (cache : Cache) (e : LogData) : StepResult :=
  let record := mkRecord e
  let base := EngineOutput.statusLine e.podName e.height e.root :: progressOutputs e
  match cacheFind cache e.height with
  | some prev =>
    if !consistentRecords record prev then
      let errStr := mismatchMsg e.height prev
      { state := cache,
        outputs := base ++ [.divergenceAlert ("@erwanor : " ++ errStr)],
        halted := some errStr }
    else
      { state := cacheSet cache e.height (prev ++ [record]), outputs := base, halted := none }
  | none =>
    { state := cacheSet cache e.height [record], outputs := base, halted := none }

/-- The tm worker loop over a sequence of extracted events: iterate
`tmStep`, stopping at the first fatal step (`log.Fatal` exits the
process, so no later event is consumed). -/
def tmRun : Cache → List LogData → StepResult
  | cache, [] => { state := cache, outputs := [], halted := none }
  | cache, e :: rest =>
    let r := tmStep cache e
    match r.halted with
    | some msg => { state := r.state, outputs := r.outputs, halted := some msg }
    | none =>
      let rr := tmRun r.state rest
      { state := rr.state, outputs := r.outputs ++ rr.outputs, halted := rr.halted }

/-- The engine's run from the fresh empty cache. -/
def tmRun0 (evs : List LogData) : StepResult :=
  tmRun [] evs

/-- The events the loop actually consumes (everything up to and including
the fatal one, if any). -/
def processedEvents : Cache → List LogData → List LogData
  | _, [] => []
  | cache, e :: rest =>
    match (tmStep cache e).halted with
    | some _ => [e]
    | none => e :: processedEvents (tmStep cache e).state rest

/-- The cache mutation of an accepted event (create or append). -/
def insertRecord (cache : Cache) (e : LogData) : Cache :=
  match cacheFind cache e.height with
  | some prev => cacheSet cache e.height (prev ++ [mkRecord e])
  | none => cacheSet cache e.height [mkRecord e]

/-- Every event of the sequence agrees with the cache contents at its
height at its own turn (the run never hits the fatal branch). -/
def cleanFromB : Cache → List LogData → Bool
  | _, [] => true
  | cache, e :: rest =>
    (getAt cache e.height).all (fun r => r.root == e.root) &&
      cleanFromB (insertRecord cache e) rest

/-- No two events of the sequence carry the same height with different
roots. -/
def noConflictB : List LogData → Bool
  | [] => true
  | e :: rest =>
    rest.all (fun b => decide (e.height = b.height → e.root = b.root)) && noConflictB rest

/-- The `(sourceId, height, root)` triple a status line records. -/
def eventView (e : LogData) : String × Nat × String :=
  (e.podName, e.height, e.root)

/-- The triples of the emitted status lines, in order. -/
def statusViews (outs : List EngineOutput) : List (String × Nat × String) :=
  outs.filterMap fun o =>
    match o with
    | .statusLine p h r => some (p, h, r)
    | _ => none

/-- The triples of the emitted progress notices, in order. -/
def progressViews (outs : List EngineOutput) : List (String × Nat × String) :=
  outs.filterMap fun o =>
    match o with
    | .progressNotice p h r => some (p, h, r)
    | _ => none

/-! ## The older tm worker loop of `main.go` (live chain-restart branch) -/

/-- State of the older loop: the cache plus the `confirmedHeight` local
(initially `0`, updated to the event's height whenever an event is
appended to an existing height record). -/
structure TmMainState where
  rootCache : Cache
  confirmedHeight : Nat
  deriving DecidableEq, Repr

/-- Outcome of one iteration of the older loop: continue with a new state,
terminate via `log.Fatal` on a root mismatch, or abort with a Go runtime
panic (index out of range) when the loop indexes a record list beyond its
length. -/
inductive MainOutcome where
  | ok (s : TmMainState)
  | fatal (msg : String)
  | crash
  deriving DecidableEq, Repr

/-- One iteration of `main.go`'s tm worker loop.  The chain-restart branch
(`commitLog.Height < confirmedHeight`) formats its message from `prev[0]`
and `prev[1]` and therefore panics when the record list holds fewer than
two entries; the mismatch branch reads `prev[0]`. -/
def mainStep (s : TmMainState) (e : LogData) : MainOutcome :=
  let record := mkRecord e
  match cacheFind s.rootCache e.height with
  | some prev =>
    if e.height < s.confirmedHeight then
      match prev with
      | p0 :: p1 :: _ =>
        .ok { rootCache := [(e.height, [record])],
              confirmedHeight :=
                -- the branch only formats p0/p1 into the restart notice
                (fun _ _ => s.confirmedHeight) p0 p1 }
      | _ => .crash
    else
      match prev with
      | [] => .crash
      | p0 :: _ =>
        if p0.root ≠ e.root then
          .fatal ("root mismatch detected at height " ++ Nat.repr e.height)
        else
          .ok { rootCache := cacheSet s.rootCache e.height (prev ++ [record]),
                confirmedHeight := e.height }
  | none =>
    .ok { rootCache := cacheSet s.rootCache e.height [record],
          confirmedHeight := s.confirmedHeight }

/-- The older loop over a sequence of extracted events. -/
def mainRun : TmMainState → List LogData → MainOutcome
  | s, [] => .ok s
  | s, e :: rest =>
    match mainStep s e with
    | .ok s2 => mainRun s2 rest
    | .fatal msg => .fatal msg
    | .crash => .crash

/-- The older loop's initial state. -/
def mainInit : TmMainState :=
  { rootCache := [], confirmedHeight := 0 }

/-! ## Substring occurrence (for statements about alert contents) -/

/-- Does `pat` occur as a contiguous block of `l`? -/
def containsSeq (pat : List Char) : List Char → Bool
  | [] => (matchLit pat []).isSome
  | c :: rest => (matchLit pat (c :: rest)).isSome || containsSeq pat rest

/-- Does `pat` occur as a contiguous substring of `s`? -/
def strContainsSub (pat s : String) : Bool :=
  containsSeq pat.toList s.toList

/-! ## The spec-side commit-line grammar (§6): the line contains the
literal marker followed by the four labelled fields. -/

/-- A line matches the commit-line grammar of the spec when it contains
the marker, a nonempty whitespace run, and the four labelled groups
(nonempty digit / hex runs) in order. -/
def matchesCommitGrammar (line : String) : Prop :=
  ∃ pre ws hd hx rt nd post : List Char,
    line.toList = pre ++ commitMarker ++ ws ++ litHeight ++ hd ++ litHash ++ hx ++
      litRoot ++ rt ++ litNumTxs ++ nd ++ post ∧
    ws ≠ [] ∧ (∀ c ∈ ws, goIsSpace c = true) ∧
    hd ≠ [] ∧ (∀ c ∈ hd, goIsDigit c = true) ∧
    hx ≠ [] ∧ (∀ c ∈ hx, goIsHexDigit c = true) ∧
    rt ≠ [] ∧ (∀ c ∈ rt, goIsHexDigit c = true) ∧
    nd ≠ [] ∧ (∀ c ∈ nd, goIsDigit c = true)

/-! ## Sample events used by the witnesses -/

/-- Event: nodeA reports root `aa` at height 100. -/
def exA : LogData := { height := 100, hash := "aa", root := "aa", numTxs := 1, podName := "nodeA" }

/-- Event: nodeB reports root `aa` at height 100. -/
def exB : LogData := { height := 100, hash := "aa", root := "aa", numTxs := 1, podName := "nodeB" }

/-- Event: nodeC reports the differing root `bb` at height 100. -/
def exC : LogData := { height := 100, hash := "bb", root := "bb", numTxs := 1, podName := "nodeC" }

/-- Event: nodeD reports root `aa` at height 100 (queued after the divergence). -/
def exD : LogData := { height := 100, hash := "aa", root := "aa", numTxs := 1, podName := "nodeD" }

/-- Event: nodeA reports root `cc` at height 200 (the duplicate example). -/
def exDup : LogData := { height := 200, hash := "cc", root := "cc", numTxs := 0, podName := "nodeA" }

/-- A record used by several witnesses: nodeA reporting root `aa`. -/
def recA : RootHashRecord := { podName := "nodeA", root := "aa" }

/-- A one-height cache holding only nodeA's report. -/
def cacheOne : Cache := [(100, [recA])]

/-- A two-height cache agreeing with `cacheOne` at height 100. -/
def cacheTwo : Cache := [(100, [recA]), (7, [{ podName := "nodeX", root := "zz" }])]

/-- The event sequence driving `main.go`'s loop into the chain-restart
branch with a single-entry record list: two agreeing reports at height 10
raise `confirmedHeight` to 10, a first report at height 5 creates a
one-entry record, and a second report at height 5 enters the restart
branch, which reads `prev[1]` of the one-entry list. -/
def c10events : List LogData :=
  [ { height := 10, hash := "aa", root := "aa", numTxs := 0, podName := "nodeA" },
    { height := 10, hash := "aa", root := "aa", numTxs := 0, podName := "nodeB" },
    { height := 5, hash := "xx", root := "xx", numTxs := 0, podName := "nodeC" },
    { height := 5, hash := "yy", root := "yy", numTxs := 0, podName := "nodeD" } ]

/-! ## Basic cache lemmas -/

theorem cacheFind_set_self (c : Cache) (k : Nat) (v : List RootHashRecord) :
    cacheFind (cacheSet c k v) k = some v := by
  induction c with
  | nil => simp [cacheSet, cacheFind]
  | cons p tl ih =>
    obtain ⟨h, recs⟩ := p
    by_cases hk : h = k
    · simp [cacheSet, hk, cacheFind]
    · simp [cacheSet, hk, cacheFind, ih]

theorem cacheFind_set_ne (c : Cache) (k : Nat) (v : List RootHashRecord) (k' : Nat)
    (hne : k' ≠ k) : cacheFind (cacheSet c k v) k' = cacheFind c k' := by
  induction c with
  | nil => simp [cacheSet, cacheFind, Ne.symm hne]
  | cons p tl ih =>
    obtain ⟨h, recs⟩ := p
    by_cases hk : h = k
    · subst hk
      simp [cacheSet, cacheFind, Ne.symm hne]
    · simp [cacheSet, hk, cacheFind, ih]

theorem getAt_nil (h : Nat) : getAt [] h = [] := rfl

theorem getAt_insertRecord (c : Cache) (e : LogData) (h2 : Nat) :
    getAt (insertRecord c e) h2 =
      if e.height = h2 then getAt c h2 ++ [mkRecord e] else getAt c h2 := by
  by_cases hh : e.height = h2
  · subst hh
    cases hfind : cacheFind c e.height with
    | none =>
      simp [insertRecord, hfind, getAt, cacheFind_set_self]
    | some prev =>
      simp [insertRecord, hfind, getAt, cacheFind_set_self]
  · cases hfind : cacheFind c e.height with
    | none =>
      simp [insertRecord, hfind, getAt, hh, cacheFind_set_ne c e.height _ h2 (Ne.symm hh)]
    | some prev =>
      simp [insertRecord, hfind, getAt, hh, cacheFind_set_ne c e.height _ h2 (Ne.symm hh)]

theorem consistentRecords_iff (cur : RootHashRecord) (recs : List RootHashRecord) :
    consistentRecords cur recs = true ↔ ∀ r ∈ recs, cur.root = r.root := by
  cases recs with
  | nil => simp [consistentRecords]
  | cons a l => simp [consistentRecords, List.all_eq_true, beq_iff_eq]

theorem all_root_eq_iff (recs : List RootHashRecord) (s : String) :
    (recs.all fun r => r.root == s) = true ↔ ∀ r ∈ recs, r.root = s := by
  simp [List.all_eq_true, beq_iff_eq]

/-! ## One-step characterisation of the engine -/

theorem tmStep_accept (c : Cache) (e : LogData)
    (hacc : ∀ r ∈ getAt c e.height, r.root = e.root) :
    tmStep c e =
      { state := insertRecord c e,
        outputs := EngineOutput.statusLine e.podName e.height e.root :: progressOutputs e,
        halted := none } := by
  cases hfind : cacheFind c e.height with
  | none => simp [tmStep, insertRecord, hfind]
  | some prev =>
    have hprev : getAt c e.height = prev := by simp [getAt, hfind]
    have hcons : consistentRecords (mkRecord e) prev = true := by
      rw [consistentRecords_iff]
      intro r hr
      exact (hacc r (hprev ▸ hr)).symm
    simp [tmStep, insertRecord, hfind, hcons]

theorem tmStep_halt (c : Cache) (e : LogData)
    (hbad : ¬ ∀ r ∈ getAt c e.height, r.root = e.root) :
    tmStep c e =
      { state := c,
        outputs := EngineOutput.statusLine e.podName e.height e.root :: progressOutputs e ++
          [.divergenceAlert ("@erwanor : " ++ mismatchMsg e.height (getAt c e.height))],
        halted := some (mismatchMsg e.height (getAt c e.height)) } := by
  cases hfind : cacheFind c e.height with
  | none =>
    exact absurd (by simp [getAt, hfind]) hbad
  | some prev =>
    have hprev : getAt c e.height = prev := by simp [getAt, hfind]
    have hcons : consistentRecords (mkRecord e) prev = false := by
      rcases hc : consistentRecords (mkRecord e) prev with _ | _
      · rfl
      · exact absurd (fun r hr => ((consistentRecords_iff _ _).1 hc r (hprev ▸ hr)).symm) hbad
    rw [hprev]
    simp [tmStep, hfind, hcons]

theorem tmStep_halted_none_iff (c : Cache) (e : LogData) :
    (tmStep c e).halted = none ↔ ∀ r ∈ getAt c e.height, r.root = e.root := by
  by_cases hacc : ∀ r ∈ getAt c e.height, r.root = e.root
  · rw [tmStep_accept c e hacc]
    simpa using hacc
  · rw [tmStep_halt c e hacc]
    simpa using hacc

/-! ## Run-level lemmas -/

theorem tmRun_nil (c : Cache) : tmRun c [] = { state := c, outputs := [], halted := none } :=
  rfl

theorem tmRun_cons_accept (c : Cache) (e : LogData) (rest : List LogData)
    (hacc : ∀ r ∈ getAt c e.height, r.root = e.root) :
    tmRun c (e :: rest) =
      { state := (tmRun (insertRecord c e) rest).state,
        outputs := (EngineOutput.statusLine e.podName e.height e.root :: progressOutputs e) ++
          (tmRun (insertRecord c e) rest).outputs,
        halted := (tmRun (insertRecord c e) rest).halted } := by
  rw [tmRun, tmStep_accept c e hacc]

theorem tmRun_cons_halt (c : Cache) (e : LogData) (rest : List LogData)
    (hbad : ¬ ∀ r ∈ getAt c e.height, r.root = e.root) :
    tmRun c (e :: rest) =
      { state := c,
        outputs := EngineOutput.statusLine e.podName e.height e.root :: progressOutputs e ++
          [.divergenceAlert ("@erwanor : " ++ mismatchMsg e.height (getAt c e.height))],
        halted := some (mismatchMsg e.height (getAt c e.height)) } := by
  rw [tmRun, tmStep_halt c e hbad]

theorem processedEvents_cons_accept (c : Cache) (e : LogData) (rest : List LogData)
    (hacc : ∀ r ∈ getAt c e.height, r.root = e.root) :
    processedEvents c (e :: rest) = e :: processedEvents (insertRecord c e) rest := by
  rw [processedEvents, tmStep_accept c e hacc]

theorem processedEvents_cons_halt (c : Cache) (e : LogData) (rest : List LogData)
    (hbad : ¬ ∀ r ∈ getAt c e.height, r.root = e.root) :
    processedEvents c (e :: rest) = [e] := by
  rw [processedEvents, tmStep_halt c e hbad]

theorem tmRun_halted_none_iff (c : Cache) (evs : List LogData) :
    (tmRun c evs).halted = none ↔ cleanFromB c evs = true := by
  induction evs generalizing c with
  | nil => simp [tmRun, cleanFromB]
  | cons e rest ih =>
    by_cases hacc : ∀ r ∈ getAt c e.height, r.root = e.root
    · rw [tmRun_cons_accept c e rest hacc, cleanFromB]
      simp [ih, (all_root_eq_iff _ _).2 hacc]
    · rw [tmRun_cons_halt c e rest hacc, cleanFromB]
      simp
      intro hall
      exact absurd hall hacc

theorem tmRun_state_of_clean (c : Cache) (evs : List LogData)
    (h : cleanFromB c evs = true) :
    (tmRun c evs).state = List.foldl insertRecord c evs := by
  induction evs generalizing c with
  | nil => simp [tmRun]
  | cons e rest ih =>
    rw [cleanFromB, Bool.and_eq_true] at h
    have hacc := (all_root_eq_iff _ _).1 h.1
    rw [tmRun_cons_accept c e rest hacc, List.foldl_cons]
    exact ih _ h.2

theorem processedEvents_of_clean (c : Cache) (evs : List LogData)
    (h : cleanFromB c evs = true) :
    processedEvents c evs = evs := by
  induction evs generalizing c with
  | nil => rfl
  | cons e rest ih =>
    rw [cleanFromB, Bool.and_eq_true] at h
    have hacc := (all_root_eq_iff _ _).1 h.1
    rw [processedEvents_cons_accept c e rest hacc, ih _ h.2]

theorem countP_divAlert_base (e : LogData) :
    ((EngineOutput.statusLine e.podName e.height e.root :: progressOutputs e).countP isDivAlert)
      = 0 := by
  by_cases hm : (e.height % 1000 == 0) = true
  · simp [progressOutputs, hm, List.countP_cons, isDivAlert]
  · simp [progressOutputs, hm, List.countP_cons, isDivAlert]

theorem tmRun_alerts_of_clean (c : Cache) (evs : List LogData)
    (h : cleanFromB c evs = true) :
    ((tmRun c evs).outputs.countP isDivAlert) = 0 := by
  induction evs generalizing c with
  | nil => simp [tmRun]
  | cons e rest ih =>
    rw [cleanFromB, Bool.and_eq_true] at h
    have hacc := (all_root_eq_iff _ _).1 h.1
    rw [tmRun_cons_accept c e rest hacc]
    simp only [List.countP_append]
    rw [countP_divAlert_base, ih _ h.2]

theorem getAt_foldl (p : List LogData) (c : Cache) (h : Nat) :
    getAt (List.foldl insertRecord c p) h =
      getAt c h ++ (p.filter fun e => e.height == h).map mkRecord := by
  induction p generalizing c with
  | nil => simp
  | cons e rest ih =>
    rw [List.foldl_cons, ih]
    by_cases hh : e.height = h
    · rw [getAt_insertRecord, if_pos hh, List.filter_cons, if_pos (by simp [hh])]
      simp
    · rw [getAt_insertRecord, if_neg hh, List.filter_cons, if_neg (by simp [hh])]

theorem noConflictB_cons_iff (e : LogData) (rest : List LogData) :
    noConflictB (e :: rest) = true ↔
      (∀ b ∈ rest, e.height = b.height → e.root = b.root) ∧ noConflictB rest = true := by
  rw [noConflictB, Bool.and_eq_true, List.all_eq_true]
  constructor
  · rintro ⟨h1, h2⟩
    refine ⟨fun b hb => ?_, h2⟩
    have := h1 b hb
    rwa [decide_eq_true_eq] at this
  · rintro ⟨h1, h2⟩
    refine ⟨fun b hb => ?_, h2⟩
    rw [decide_eq_true_eq]
    exact h1 b hb

theorem cleanFromB_iff (c : Cache) (evs : List LogData) :
    cleanFromB c evs = true ↔
      (noConflictB evs = true ∧ ∀ e ∈ evs, ∀ r ∈ getAt c e.height, r.root = e.root) := by
  induction evs generalizing c with
  | nil => simp [cleanFromB, noConflictB]
  | cons e rest ih =>
    rw [cleanFromB, Bool.and_eq_true, all_root_eq_iff, ih, noConflictB_cons_iff]
    constructor
    · rintro ⟨hhead, hnc, hrest⟩
      refine ⟨⟨fun b hb hh => ?_, hnc⟩, fun e' he' => ?_⟩
      · have hmem : mkRecord e ∈ getAt (insertRecord c e) b.height := by
          rw [getAt_insertRecord, if_pos hh]
          exact List.mem_append.2 (Or.inr (List.mem_singleton.2 rfl))
        simpa [mkRecord] using hrest b hb (mkRecord e) hmem
      · rcases List.mem_cons.1 he' with rfl | he'
        · exact hhead
        · intro r hr
          refine hrest e' he' r ?_
          rw [getAt_insertRecord]
          by_cases hh : e.height = e'.height
          · rw [if_pos hh]
            exact List.mem_append.2 (Or.inl hr)
          · rwa [if_neg hh]
    · rintro ⟨⟨hpair, hnc⟩, hall⟩
      refine ⟨hall e (List.mem_cons_self e rest), hnc, fun e' he' r hr => ?_⟩
      rw [getAt_insertRecord] at hr
      by_cases hh : e.height = e'.height
      · rw [if_pos hh] at hr
        rcases List.mem_append.1 hr with hr | hr
        · exact hall e' (List.mem_cons_of_mem e he') r hr
        · rcases List.mem_singleton.1 hr with rfl
          simpa [mkRecord] using hpair e' he' hh
      · rw [if_neg hh] at hr
        exact hall e' (List.mem_cons_of_mem e he') r hr

theorem filter_roots_agree :
    ∀ (evs : List LogData), noConflictB evs = true → ∀ (h : Nat),
      ∀ a ∈ evs.filter (fun e => e.height == h), ∀ b ∈ evs.filter (fun e => e.height == h),
        a.root = b.root := by
  intro evs
  induction evs with
  | nil => simp
  | cons e rest ih =>
    intro hnc h a ha b hb
    rw [noConflictB_cons_iff] at hnc
    obtain ⟨hhead, hrest⟩ := hnc
    rw [List.filter_cons] at ha hb
    by_cases hh : (e.height == h) = true
    · rw [if_pos hh] at ha hb
      have hh' : e.height = h := by simpa using hh
      rcases List.mem_cons.1 ha with ha | ha
      · rcases List.mem_cons.1 hb with hb | hb
        · rw [ha, hb]
        · have hbmem := List.mem_filter.1 hb
          have hbh : b.height = h := by simpa using hbmem.2
          rw [ha]
          exact hhead b hbmem.1 (hh'.trans hbh.symm)
      · rcases List.mem_cons.1 hb with hb | hb
        · have hamem := List.mem_filter.1 ha
          have hah : a.height = h := by simpa using hamem.2
          rw [hb]
          exact (hhead a hamem.1 (hh'.trans hah.symm)).symm
        · exact ih hrest h a ha b hb
    · rw [if_neg hh] at ha hb
      exact ih hrest h a ha b hb

theorem tmRun_append (c : Cache) (l1 l2 : List LogData)
    (h : (tmRun c l1).halted = none) :
    tmRun c (l1 ++ l2) =
      { state := (tmRun (tmRun c l1).state l2).state,
        outputs := (tmRun c l1).outputs ++ (tmRun (tmRun c l1).state l2).outputs,
        halted := (tmRun (tmRun c l1).state l2).halted } := by
  induction l1 generalizing c with
  | nil => simp [tmRun]
  | cons e rest ih =>
    have hclean := (tmRun_halted_none_iff c (e :: rest)).1 h
    rw [cleanFromB, Bool.and_eq_true] at hclean
    have hacc := (all_root_eq_iff _ _).1 hclean.1
    have h' : (tmRun (insertRecord c e) rest).halted = none :=
      (tmRun_halted_none_iff _ _).2 hclean.2
    rw [List.cons_append, tmRun_cons_accept c e _ hacc, tmRun_cons_accept c e rest hacc,
      ih _ h']
    simp

theorem processedEvents_append (c : Cache) (l1 l2 : List LogData)
    (h : (tmRun c l1).halted = none) :
    processedEvents c (l1 ++ l2) = l1 ++ processedEvents (tmRun c l1).state l2 := by
  induction l1 generalizing c with
  | nil => simp [tmRun]
  | cons e rest ih =>
    have hclean := (tmRun_halted_none_iff c (e :: rest)).1 h
    rw [cleanFromB, Bool.and_eq_true] at hclean
    have hacc := (all_root_eq_iff _ _).1 hclean.1
    have h' : (tmRun (insertRecord c e) rest).halted = none :=
      (tmRun_halted_none_iff _ _).2 hclean.2
    rw [List.cons_append, processedEvents_cons_accept c e _ hacc,
      tmRun_cons_accept c e rest hacc, ih _ h']
    simp

/-! ## Status line / progress notice bookkeeping -/

theorem statusViews_base (e : LogData) :
    statusViews (EngineOutput.statusLine e.podName e.height e.root :: progressOutputs e)
      = [eventView e] := by
  by_cases hm : (e.height % 1000 == 0) = true
  · simp [statusViews, progressOutputs, hm, eventView]
  · simp [statusViews, progressOutputs, hm, eventView]

theorem progressViews_base (e : LogData) :
    progressViews (EngineOutput.statusLine e.podName e.height e.root :: progressOutputs e)
      = if e.height % 1000 == 0 then [eventView e] else [] := by
  by_cases hm : (e.height % 1000 == 0) = true
  · simp [progressViews, progressOutputs, hm, eventView]
  · simp [progressViews, progressOutputs, hm, eventView]

theorem statusViews_halt (e : LogData) (m : String) :
    statusViews (EngineOutput.statusLine e.podName e.height e.root :: progressOutputs e ++
      [.divergenceAlert m]) = [eventView e] := by
  by_cases hm : (e.height % 1000 == 0) = true
  · simp [statusViews, progressOutputs, hm, eventView]
  · simp [statusViews, progressOutputs, hm, eventView]

theorem progressViews_halt (e : LogData) (m : String) :
    progressViews (EngineOutput.statusLine e.podName e.height e.root :: progressOutputs e ++
      [.divergenceAlert m]) = if e.height % 1000 == 0 then [eventView e] else [] := by
  by_cases hm : (e.height % 1000 == 0) = true
  · simp [progressViews, progressOutputs, hm, eventView]
  · simp [progressViews, progressOutputs, hm, eventView]

theorem statusViews_tmRun (c : Cache) (evs : List LogData) :
    statusViews (tmRun c evs).outputs = (processedEvents c evs).map eventView := by
  induction evs generalizing c with
  | nil => simp [tmRun, processedEvents, statusViews]
  | cons e rest ih =>
    by_cases hacc : ∀ r ∈ getAt c e.height, r.root = e.root
    · rw [tmRun_cons_accept c e rest hacc, processedEvents_cons_accept c e rest hacc]
      simp only [statusViews, List.filterMap_append, List.map_cons]
      rw [← statusViews, ← statusViews, statusViews_base, ih]
      rfl
    · rw [tmRun_cons_halt c e rest hacc, processedEvents_cons_halt c e rest hacc,
        statusViews_halt]
      rfl

theorem progressViews_tmRun (c : Cache) (evs : List LogData) :
    progressViews (tmRun c evs).outputs =
      ((processedEvents c evs).filter fun e => e.height % 1000 == 0).map eventView := by
  induction evs generalizing c with
  | nil => simp [tmRun, processedEvents, progressViews]
  | cons e rest ih =>
    by_cases hacc : ∀ r ∈ getAt c e.height, r.root = e.root
    · rw [tmRun_cons_accept c e rest hacc, processedEvents_cons_accept c e rest hacc]
      simp only [progressViews, List.filterMap_append]
      rw [← progressViews, ← progressViews, progressViews_base, ih, List.filter_cons]
      by_cases hm : (e.height % 1000 == 0) = true
      · simp [hm]
      · simp [hm]
    · rw [tmRun_cons_halt c e rest hacc, processedEvents_cons_halt c e rest hacc,
        progressViews_halt, List.filter_cons]
      by_cases hm : (e.height % 1000 == 0) = true
      · simp [hm, eventView]
      · simp [hm]

/-! ## Additional helper lemmas for the claims -/

theorem noConflictB_of_const_root (rt : String) :
    ∀ (evs : List LogData), (∀ e ∈ evs, e.root = rt) → noConflictB evs = true := by
  intro evs
  induction evs with
  | nil => intro _; rfl
  | cons e rest ih =>
    intro hall
    rw [noConflictB_cons_iff]
    refine ⟨fun b hb _ => ?_, ih fun e' he' => hall e' (List.mem_cons_of_mem e he')⟩
    rw [hall e (List.mem_cons_self e rest), hall b (List.mem_cons_of_mem e hb)]

/-! ## Claims C1, C2, C3, C4, C7, C8, C9 -/

/-- C1: for every event sequence containing two commit events at the same
height with differing roots — decomposed as a conflict-free prefix `l1`, the
first event `ej` conflicting with an earlier one, and an arbitrary remainder
`l2` — the engine halts (`log.Fatal`, non-zero exit), emits exactly one
divergence alert, and consumes exactly the events up to and including `ej`,
so no input continues past a detected divergence. -/
theorem c1_first_divergence_halts (l1 l2 : List LogData) (ej : LogData)
    (h1 : noConflictB l1 = true)
    (h2 : ∃ e ∈ l1, e.height = ej.height ∧ e.root ≠ ej.root) :
    (tmRun0 (l1 ++ ej :: l2)).halted.isSome = true ∧
    (tmRun0 (l1 ++ ej :: l2)).outputs.countP isDivAlert = 1 ∧
    processedEvents [] (l1 ++ ej :: l2) = l1 ++ [ej] := by
  have hclean : cleanFromB [] l1 = true := by
    rw [cleanFromB_iff]
    exact ⟨h1, fun e he r hr => by rw [getAt_nil] at hr; cases hr⟩
  have hh0 : (tmRun [] l1).halted = none := (tmRun_halted_none_iff [] l1).2 hclean
  have hstate : (tmRun [] l1).state = List.foldl insertRecord [] l1 :=
    tmRun_state_of_clean [] l1 hclean
  obtain ⟨e0, he0, heq, hne⟩ := h2
  have hmem : mkRecord e0 ∈ getAt (tmRun [] l1).state ej.height := by
    rw [hstate, getAt_foldl, getAt_nil, List.nil_append]
    exact List.mem_map.2 ⟨e0, List.mem_filter.2 ⟨he0, by simp [heq]⟩, rfl⟩
  have hbad : ¬ ∀ r ∈ getAt (tmRun [] l1).state ej.height, r.root = ej.root := by
    intro hall
    exact hne (by simpa [mkRecord] using hall _ hmem)
  rw [tmRun0, tmRun_append [] l1 (ej :: l2) hh0, processedEvents_append [] l1 (ej :: l2) hh0,
    tmRun_cons_halt _ ej l2 hbad, processedEvents_cons_halt _ ej l2 hbad]
  refine ⟨rfl, ?_, rfl⟩
  simp only [List.countP_append]
  rw [tmRun_alerts_of_clean [] l1 hclean]
  by_cases hm : (ej.height % 1000 == 0) = true
  · simp [progressOutputs, hm, List.countP_cons, isDivAlert]
  · simp [progressOutputs, hm, List.countP_cons, isDivAlert]

/-- C1 witness: the sequence nodeA:aa, nodeB:aa, nodeC:bb, nodeD:aa at
height 100 halts at nodeC with one alert, never consuming nodeD. -/
theorem c1_witness :
    (tmRun0 [exA, exB, exC, exD]).halted.isSome = true ∧
    (tmRun0 [exA, exB, exC, exD]).outputs.countP isDivAlert = 1 ∧
    processedEvents [] [exA, exB, exC, exD] = [exA, exB, exC] := by
  have h := c1_first_divergence_halts [exA, exB] [exD] exC (by decide) (by decide)
  simpa using h

/-- C2: when a height record already exists, the engine accepts the event
iff the incoming root equals the root of **every** cached entry for that
height, and on acceptance it appends the new `(sourceId, root)` entry to
the existing list. -/
theorem c2_checks_every_entry (c : Cache) (e : LogData) (prev : List RootHashRecord)
    (hfind : cacheFind c e.height = some prev) :
    ((tmStep c e).halted = none ↔ ∀ r ∈ prev, r.root = e.root) ∧
    ((∀ r ∈ prev, r.root = e.root) →
      (tmStep c e).state = cacheSet c e.height (prev ++ [mkRecord e])) := by
  have hprev : getAt c e.height = prev := by simp [getAt, hfind]
  constructor
  · rw [tmStep_halted_none_iff, hprev]
  · intro hall
    have hacc : ∀ r ∈ getAt c e.height, r.root = e.root := by rw [hprev]; exact hall
    rw [tmStep_accept c e hacc]
    simp [insertRecord, hfind]

/-- C2 witness: with nodeA:aa cached at height 100, nodeB:aa is accepted
and appended after the existing entry. -/
theorem c2_witness :
    (tmStep cacheOne exB).halted = none ∧
    (tmStep cacheOne exB).state = cacheSet cacheOne 100 ([recA] ++ [mkRecord exB]) := by
  have h := c2_checks_every_entry cacheOne exB [recA] (by decide)
  exact ⟨h.1.mpr (by decide), h.2 (by decide)⟩

/-- C3: after any run from the empty cache that does not halt, every
height's stored reports carry pairwise identical root strings. -/
theorem c3_cache_roots_agree (evs : List LogData)
    (h : (tmRun0 evs).halted = none) :
    ∀ ht recs, cacheFind (tmRun0 evs).state ht = some recs →
      ∀ r1 ∈ recs, ∀ r2 ∈ recs, r1.root = r2.root := by
  have hclean : cleanFromB [] evs = true := (tmRun_halted_none_iff [] evs).1 h
  have hnc : noConflictB evs = true := ((cleanFromB_iff [] evs).1 hclean).1
  have hstate : (tmRun0 evs).state = List.foldl insertRecord [] evs :=
    tmRun_state_of_clean [] evs hclean
  intro ht recs hfind r1 h1 r2 h2
  have hget : getAt (tmRun0 evs).state ht = recs := by simp [getAt, hfind]
  rw [hstate, getAt_foldl, getAt_nil, List.nil_append] at hget
  rw [← hget] at h1 h2
  obtain ⟨a, ha, rfl⟩ := List.mem_map.1 h1
  obtain ⟨b, hb, rfl⟩ := List.mem_map.1 h2
  have := filter_roots_agree evs hnc ht a ha b hb
  simpa [mkRecord] using this

/-- C3 witness: running nodeA:aa then nodeB:aa does not halt, and the two
entries cached at height 100 carry the same root. -/
theorem c3_witness :
    (tmRun0 [exA, exB]).halted = none ∧
    ({ podName := "nodeA", root := "aa" } : RootHashRecord).root =
      ({ podName := "nodeB", root := "aa" } : RootHashRecord).root := by
  refine ⟨by decide, ?_⟩
  exact c3_cache_roots_agree [exA, exB] (by decide) 100
    [{ podName := "nodeA", root := "aa" }, { podName := "nodeB", root := "aa" }]
    (by decide)
    { podName := "nodeA", root := "aa" } (by decide)
    { podName := "nodeB", root := "aa" } (by decide)

/-- C4: a sequence of events all at one height and all carrying one root —
in any order, with any duplication or repeated sourceIds — is fully
accepted, produces one cache entry per event, and raises no divergence. -/
theorem c4_single_height_no_divergence (hgt : Nat) (rt : String) (evs : List LogData)
    (hall : ∀ e ∈ evs, e.height = hgt ∧ e.root = rt) :
    (tmRun0 evs).halted = none ∧
    processedEvents [] evs = evs ∧
    getAt (tmRun0 evs).state hgt = evs.map mkRecord ∧
    (tmRun0 evs).outputs.countP isDivAlert = 0 := by
  have hnc := noConflictB_of_const_root rt evs fun e he => (hall e he).2
  have hclean : cleanFromB [] evs = true := by
    rw [cleanFromB_iff]
    exact ⟨hnc, fun e he r hr => by rw [getAt_nil] at hr; cases hr⟩
  refine ⟨(tmRun_halted_none_iff [] evs).2 hclean, processedEvents_of_clean [] evs hclean,
    ?_, tmRun_alerts_of_clean [] evs hclean⟩
  rw [tmRun0, tmRun_state_of_clean [] evs hclean, getAt_foldl, getAt_nil, List.nil_append]
  congr 1
  exact List.filter_eq_self.2 fun a ha => by simp [(hall a ha).1]

/-- C4 witness: the exact duplicate pair at height 200 is fully accepted
and yields two cache entries, with no divergence alert. -/
theorem c4_witness :
    (tmRun0 [exDup, exDup]).halted = none ∧
    processedEvents [] [exDup, exDup] = [exDup, exDup] ∧
    getAt (tmRun0 [exDup, exDup]).state 200 = [mkRecord exDup, mkRecord exDup] ∧
    (tmRun0 [exDup, exDup]).outputs.countP isDivAlert = 0 := by
  have h := c4_single_height_no_divergence 200 "cc" [exDup, exDup] (by decide)
  simpa using h

/-- C7: the engine's verdict on an event depends only on the cache entry at
the event's height — two caches agreeing there produce the same halt status
and the same emissions — and processing the event leaves the cache entries
of every other height unchanged. -/
theorem c7_height_isolation (ca cb : Cache) (e : LogData)
    (hsame : cacheFind ca e.height = cacheFind cb e.height) :
    ((tmStep ca e).halted = (tmStep cb e).halted ∧
      (tmStep ca e).outputs = (tmStep cb e).outputs) ∧
    (∀ h2, h2 ≠ e.height → cacheFind (tmStep ca e).state h2 = cacheFind ca h2) := by
  have hget : getAt ca e.height = getAt cb e.height := by rw [getAt, getAt, hsame]
  constructor
  · by_cases hacc : ∀ r ∈ getAt ca e.height, r.root = e.root
    · have hacc2 : ∀ r ∈ getAt cb e.height, r.root = e.root := by
        rw [← hget]; exact hacc
      rw [tmStep_accept ca e hacc, tmStep_accept cb e hacc2]
      exact ⟨rfl, rfl⟩
    · have hacc2 : ¬ ∀ r ∈ getAt cb e.height, r.root = e.root := by
        rw [← hget]; exact hacc
      rw [tmStep_halt ca e hacc, tmStep_halt cb e hacc2, hget]
      exact ⟨rfl, rfl⟩
  · intro h2 hne
    by_cases hacc : ∀ r ∈ getAt ca e.height, r.root = e.root
    · rw [tmStep_accept ca e hacc]
      show cacheFind (insertRecord ca e) h2 = cacheFind ca h2
      rw [insertRecord]
      cases hfind : cacheFind ca e.height with
      | none => exact cacheFind_set_ne ca e.height _ h2 hne
      | some prev => exact cacheFind_set_ne ca e.height _ h2 hne
    · rw [tmStep_halt ca e hacc]

/-- C7 witness: two caches agreeing at height 100 treat nodeB's event
identically, and the entry at height 7 is untouched. -/
theorem c7_witness :
    ((tmStep cacheOne exB).halted = (tmStep cacheTwo exB).halted ∧
      (tmStep cacheOne exB).outputs = (tmStep cacheTwo exB).outputs) ∧
    cacheFind (tmStep cacheOne exB).state 7 = cacheFind cacheOne 7 := by
  have h := c7_height_isolation cacheOne cacheTwo exB (by decide)
  exact ⟨h.1, h.2 7 (by decide)⟩

/-- C8: the run emits one status line recording `(sourceId, height, root)`
for every processed event (hence for every accepted one), and emits a
progress notice exactly for the processed events whose height is congruent
to 0 modulo the height modulus 1000 hard-coded in the source. -/
theorem c8_status_and_progress (evs : List LogData) :
    statusViews (tmRun0 evs).outputs = (processedEvents [] evs).map eventView ∧
    progressViews (tmRun0 evs).outputs =
      ((processedEvents [] evs).filter fun e => e.height % 1000 == 0).map eventView :=
  ⟨statusViews_tmRun [] evs, progressViews_tmRun [] evs⟩

/-- C9: a sequence fully accepted from the fresh empty cache is its own
processed sequence, and replaying it from a fresh empty cache reproduces
the identical run — same final cache content and again no divergence. -/
theorem c9_replay_same_result (evs : List LogData)
    (h : (tmRun0 evs).halted = none) :
    processedEvents [] evs = evs ∧
    tmRun0 (processedEvents [] evs) = tmRun0 evs ∧
    (tmRun0 (processedEvents [] evs)).halted = none := by
  have hclean : cleanFromB [] evs = true := (tmRun_halted_none_iff [] evs).1 h
  have hp := processedEvents_of_clean [] evs hclean
  exact ⟨hp, by rw [hp], by rw [hp]; exact h⟩

/-- C9 witness: the accepted pair nodeA:aa, nodeB:aa replays to the
identical run result. -/
theorem c9_witness :
    processedEvents [] [exA, exB] = [exA, exB] ∧
    tmRun0 (processedEvents [] [exA, exB]) = tmRun0 [exA, exB] ∧
    (tmRun0 (processedEvents [] [exA, exB])).halted = none :=
  c9_replay_same_result [exA, exB] (by decide)

/-! ## String and substring lemmas for the alert-content claims -/

theorem strToList_append (s t : String) : (s ++ t).toList = s.toList ++ t.toList := by
  cases s; cases t; rfl

theorem strAppend_assoc (a b c : String) : a ++ b ++ c = a ++ (b ++ c) := by
  cases a with
  | mk x =>
    cases b with
    | mk y =>
      cases c with
      | mk z =>
        show String.mk (x ++ y ++ z) = String.mk (x ++ (y ++ z))
        rw [List.append_assoc]

theorem strAppend_empty (s : String) : s ++ "" = s := by
  cases s with
  | mk x =>
    show String.mk (x ++ []) = String.mk x
    rw [List.append_nil]

theorem matchLit_self_append (p r : List Char) : matchLit p (p ++ r) = some r := by
  induction p with
  | nil => rfl
  | cons c cs ih => simp [matchLit, ih]

theorem containsSeq_of_matchLit (pat l r : List Char) (h : matchLit pat l = some r) :
    containsSeq pat l = true := by
  cases l with
  | nil => rw [containsSeq, h]; rfl
  | cons c cs => rw [containsSeq, h]; rfl

theorem containsSeq_cons (pat : List Char) (c : Char) (rest : List Char)
    (h : containsSeq pat rest = true) : containsSeq pat (c :: rest) = true := by
  rw [containsSeq, h, Bool.or_true]

theorem containsSeq_append_left (pat a l : List Char) (h : containsSeq pat l = true) :
    containsSeq pat (a ++ l) = true := by
  induction a with
  | nil => exact h
  | cons c cs ih => exact containsSeq_cons pat c _ ih

theorem containsSeq_self_append (pat b : List Char) : containsSeq pat (pat ++ b) = true :=
  containsSeq_of_matchLit pat _ b (matchLit_self_append pat b)

theorem strContainsSub_intro (pat s x y : String) (h : s = x ++ pat ++ y) :
    strContainsSub pat s = true := by
  subst h
  rw [strContainsSub, strToList_append, strToList_append, List.append_assoc]
  exact containsSeq_append_left _ _ _ (containsSeq_self_append _ _)

theorem knownFold_prefix :
    ∀ (prev : List RootHashRecord) (acc : String),
      ∃ y : String,
        List.foldl (fun s r => s ++ r.podName ++ ": " ++ r.root ++ "\n") acc prev = acc ++ y := by
  intro prev
  induction prev with
  | nil => exact fun acc => ⟨"", (strAppend_empty acc).symm⟩
  | cons p rest ih =>
    intro acc
    obtain ⟨y, hy⟩ := ih (acc ++ p.podName ++ ": " ++ p.root ++ "\n")
    refine ⟨p.podName ++ ": " ++ p.root ++ "\n" ++ y, ?_⟩
    rw [List.foldl_cons, hy]
    simp [strAppend_assoc]

theorem knownFold_split (r : RootHashRecord) :
    ∀ (prev : List RootHashRecord) (acc : String), r ∈ prev →
      ∃ x y : String,
        List.foldl (fun s r2 => s ++ r2.podName ++ ": " ++ r2.root ++ "\n") acc prev =
          x ++ (r.podName ++ ": " ++ r.root ++ "\n") ++ y := by
  intro prev
  induction prev with
  | nil => intro acc hr; cases hr
  | cons p rest ih =>
    intro acc hr
    rcases List.mem_cons.1 hr with hr | hr
    · subst hr
      obtain ⟨y, hy⟩ := knownFold_prefix rest (acc ++ r.podName ++ ": " ++ r.root ++ "\n")
      refine ⟨acc, y, ?_⟩
      rw [List.foldl_cons, hy]
      simp [strAppend_assoc]
    · obtain ⟨x, y, hxy⟩ := ih (acc ++ p.podName ++ ": " ++ p.root ++ "\n") hr
      exact ⟨x, y, by rw [List.foldl_cons]; exact hxy⟩

theorem knownRootHashesString_split (r : RootHashRecord) (prev : List RootHashRecord)
    (hr : r ∈ prev) :
    ∃ x y : String,
      knownRootHashesString prev = x ++ (r.podName ++ ": " ++ r.root ++ "\n") ++ y := by
  rw [knownRootHashesString]
  exact knownFold_split r prev "" hr

/-! ## Claim C5 -/

/-- C5 counterexample: on the §8 example sequence nodeA:aa, nodeB:aa,
nodeC:bb at height 100, the single divergence alert dumps only the two
cached pairs — the string `nodeC` (the incoming diverging event's sourceId)
appears nowhere in it, contradicting the claim that the alert names the
incoming pair as well. -/
theorem c5_counterexample :
    (tmRun0 [exA, exB, exC]).outputs.filter isDivAlert =
      [EngineOutput.divergenceAlert
        "@erwanor : ROOT MISMATCH DETECTED AT BLOCK 100\nnodeA: aa\nnodeB: aa\n"] ∧
    strContainsSub "nodeC"
      "@erwanor : ROOT MISMATCH DETECTED AT BLOCK 100\nnodeA: aa\nnodeB: aa\n" = false := by
  constructor
  · decide
  · decide

/-- C5 (amended): when the engine halts on an event, it emits exactly one
divergence alert, carrying the `err_str` message that names the divergent
height and every `(sourceId, root)` pair cached at that height before the
event; the incoming event's own pair is not part of the dump. -/
theorem c5_alert_names_height_and_cached_pairs (c : Cache) (e : LogData) (msg : String)
    (h : (tmStep c e).halted = some msg) :
    (tmStep c e).outputs.countP isDivAlert = 1 ∧
    EngineOutput.divergenceAlert ("@erwanor : " ++ msg) ∈ (tmStep c e).outputs ∧
    strContainsSub (Nat.repr e.height) msg = true ∧
    (∀ r ∈ getAt c e.height,
      strContainsSub (r.podName ++ ": " ++ r.root ++ "\n") msg = true) := by
  by_cases hacc : ∀ r ∈ getAt c e.height, r.root = e.root
  · rw [tmStep_accept c e hacc] at h
    cases h
  · rw [tmStep_halt c e hacc] at h
    simp only [Option.some.injEq] at h
    subst h
    rw [tmStep_halt c e hacc]
    refine ⟨?_, ?_, ?_, ?_⟩
    · by_cases hm : (e.height % 1000 == 0) = true
      · simp [progressOutputs, hm, List.countP_cons, isDivAlert]
      · simp [progressOutputs, hm, List.countP_cons, isDivAlert]
    · simp
    · exact strContainsSub_intro _ _ "ROOT MISMATCH DETECTED AT BLOCK "
        ("\n" ++ knownRootHashesString (getAt c e.height))
        (by rw [mismatchMsg]; simp [strAppend_assoc])
    · intro r hr
      obtain ⟨x, y, hxy⟩ := knownRootHashesString_split r (getAt c e.height) hr
      refine strContainsSub_intro _ _
        ("ROOT MISMATCH DETECTED AT BLOCK " ++ Nat.repr e.height ++ "\n" ++ x) y ?_
      rw [mismatchMsg, hxy]
      simp [strAppend_assoc]

/-- C5 witness: with nodeA:aa cached at height 100, nodeC:bb produces the
alert whose message names height 100 and the cached pair nodeA:aa. -/
theorem c5_witness :
    (tmStep cacheOne exC).outputs.countP isDivAlert = 1 ∧
    EngineOutput.divergenceAlert
      ("@erwanor : " ++ "ROOT MISMATCH DETECTED AT BLOCK 100\nnodeA: aa\n") ∈
      (tmStep cacheOne exC).outputs ∧
    strContainsSub (Nat.repr exC.height) "ROOT MISMATCH DETECTED AT BLOCK 100\nnodeA: aa\n"
      = true ∧
    strContainsSub (recA.podName ++ ": " ++ recA.root ++ "\n")
      "ROOT MISMATCH DETECTED AT BLOCK 100\nnodeA: aa\n" = true := by
  have h := c5_alert_names_height_and_cached_pairs cacheOne exC
    "ROOT MISMATCH DETECTED AT BLOCK 100\nnodeA: aa\n" (by decide)
  exact ⟨h.1, h.2.1, h.2.2.1, h.2.2.2 recA (by decide)⟩

/-! ## Claim C10 -/

/-- C10: the older tm worker loop of `main.go` aborts with a Go runtime
panic (index out of range) on `c10events` — the chain-restart branch runs
while the current height's record list holds a single entry, so reading
`prev[1]` is out of bounds, refuting the claim that every list index the
loop uses is within bounds. -/
theorem c10_restart_branch_crashes : mainRun mainInit c10events = .crash := by
  decide

/-! ## Matcher soundness and completeness (claim C6) -/

theorem matchLit_sound (p : List Char) :
    ∀ (l r : List Char), matchLit p l = some r → l = p ++ r := by
  induction p with
  | nil =>
    intro l r h
    rw [matchLit] at h
    cases h
    rfl
  | cons c cs ih =>
    intro l r h
    cases l with
    | nil => cases h
    | cons x xs =>
      rw [matchLit] at h
      by_cases hx : c = x
      · rw [if_pos hx] at h
        rw [List.cons_append, ← hx, ih xs r h]
      · rw [if_neg hx] at h
        cases h

theorem spanP_sound (p : Char → Bool) :
    ∀ (l : List Char), l = (spanP p l).1 ++ (spanP p l).2 ∧ ∀ c ∈ (spanP p l).1, p c = true := by
  intro l
  induction l with
  | nil => exact ⟨rfl, by simp [spanP]⟩
  | cons c cs ih =>
    by_cases hc : p c = true
    · rw [spanP, if_pos hc]
      refine ⟨by rw [List.cons_append, ← ih.1], ?_⟩
      intro x hx
      rcases List.mem_cons.1 hx with hx | hx
      · rw [hx]; exact hc
      · exact ih.2 x hx
    · rw [spanP, if_neg hc]
      exact ⟨rfl, by simp⟩

theorem takeWhile1_sound (p : Char → Bool) (l : List Char) (pr : List Char × List Char)
    (h : takeWhile1 p l = some pr) :
    l = pr.1 ++ pr.2 ∧ pr.1 ≠ [] ∧ ∀ c ∈ pr.1, p c = true := by
  rw [takeWhile1] at h
  by_cases he : ((spanP p l).1.isEmpty) = true
  · rw [if_pos he] at h
    cases h
  · rw [if_neg he] at h
    have hpr : spanP p l = pr := by injection h
    have hs := spanP_sound p l
    rw [hpr] at hs he
    exact ⟨hs.1, by simpa [List.isEmpty_iff] using he, hs.2⟩

theorem spanP_append (p : Char → Bool) :
    ∀ (a b : List Char), (∀ c ∈ a, p c = true) →
      (∀ c, b.head? = some c → p c = false) → spanP p (a ++ b) = (a, b) := by
  intro a
  induction a with
  | nil =>
    intro b _ hb
    cases b with
    | nil => rfl
    | cons c cs =>
      rw [List.nil_append, spanP, if_neg]
      rw [hb c rfl]
      simp
  | cons x xs ih =>
    intro b ha hb
    have hx : p x = true := ha x (List.mem_cons_self x xs)
    rw [List.cons_append, spanP, if_pos hx,
      ih b (fun c hc => ha c (List.mem_cons_of_mem x hc)) hb]

theorem takeWhile1_append (p : Char → Bool) (a b : List Char) (ha0 : a ≠ [])
    (ha : ∀ c ∈ a, p c = true) (hb : ∀ c, b.head? = some c → p c = false) :
    takeWhile1 p (a ++ b) = some (a, b) := by
  rw [takeWhile1, spanP_append p a b ha hb]
  rw [if_neg]
  simpa [List.isEmpty_iff] using ha0

theorem head_some_append (l r : List Char) (a : Char) (h : l.head? = some a) :
    (l ++ r).head? = some a := by
  cases l with
  | nil => cases h
  | cons x xs => exact h

theorem matchCommitAt_complete (ws hd hx rt nd post : List Char)
    (hws0 : ws ≠ []) (hws : ∀ c ∈ ws, goIsSpace c = true)
    (hhd0 : hd ≠ []) (hhd : ∀ c ∈ hd, goIsDigit c = true)
    (hhx0 : hx ≠ []) (hhx : ∀ c ∈ hx, goIsHexDigit c = true)
    (hrt0 : rt ≠ []) (hrt : ∀ c ∈ rt, goIsHexDigit c = true)
    (hnd0 : nd ≠ []) (hnd : ∀ c ∈ nd, goIsDigit c = true)
    (hpost : ∀ c, post.head? = some c → goIsDigit c = false) :
    matchCommitAt (commitMarker ++ (ws ++ (litHeight ++ (hd ++ (litHash ++ (hx ++
      (litRoot ++ (rt ++ (litNumTxs ++ (nd ++ post)))))))))) =
      some { heightDigits := hd, hashHex := hx, rootHex := rt, numTxsDigits := nd } := by
  have s1 : ∀ c, (litHeight ++ (hd ++ (litHash ++ (hx ++ (litRoot ++ (rt ++ (litNumTxs ++
      (nd ++ post)))))))).head? = some c → goIsSpace c = false := by
    intro c hc
    rw [head_some_append litHeight _ 'm' (by decide)] at hc
    injection hc with hc
    subst hc
    decide
  have s2 : ∀ c, (litHash ++ (hx ++ (litRoot ++ (rt ++ (litNumTxs ++
      (nd ++ post)))))).head? = some c → goIsDigit c = false := by
    intro c hc
    rw [head_some_append litHash _ ' ' (by decide)] at hc
    injection hc with hc
    subst hc
    decide
  have s3 : ∀ c, (litRoot ++ (rt ++ (litNumTxs ++ (nd ++ post)))).head? = some c →
      goIsHexDigit c = false := by
    intro c hc
    rw [head_some_append litRoot _ ' ' (by decide)] at hc
    injection hc with hc
    subst hc
    decide
  have s4 : ∀ c, (litNumTxs ++ (nd ++ post)).head? = some c → goIsHexDigit c = false := by
    intro c hc
    rw [head_some_append litNumTxs _ ' ' (by decide)] at hc
    injection hc with hc
    subst hc
    decide
  rw [matchCommitAt, matchLit_self_append, Option.some_bind,
    takeWhile1_append goIsSpace ws _ hws0 hws s1, Option.some_bind,
    matchLit_self_append, Option.some_bind,
    takeWhile1_append goIsDigit hd _ hhd0 hhd s2, Option.some_bind,
    matchLit_self_append, Option.some_bind,
    takeWhile1_append goIsHexDigit hx _ hhx0 hhx s3, Option.some_bind,
    matchLit_self_append, Option.some_bind,
    takeWhile1_append goIsHexDigit rt _ hrt0 hrt s4, Option.some_bind,
    matchLit_self_append, Option.some_bind,
    takeWhile1_append goIsDigit nd post hnd0 hnd hpost, Option.map_some']

theorem matchCommitAt_nil : matchCommitAt [] = none := by decide

theorem findCommitMatch_skip :
    ∀ (pre core : List Char) (g : CommitGroups),
      (∀ p, p < pre.length → matchCommitAt (List.drop p pre ++ core) = none) →
      matchCommitAt core = some g →
      findCommitMatch (pre ++ core) = some g := by
  intro pre
  induction pre with
  | nil =>
    intro core g _ hcore
    cases core with
    | nil => rw [matchCommitAt_nil] at hcore; cases hcore
    | cons c cs =>
      rw [List.nil_append, findCommitMatch, hcore]
  | cons x xs ih =>
    intro core g hpre hcore
    have h0 : matchCommitAt (x :: (xs ++ core)) = none := by
      have hm := hpre 0 (by simp)
      simp only [List.drop] at hm
      rw [List.cons_append] at hm
      exact hm
    rw [List.cons_append, findCommitMatch, h0]
    exact ih core g (fun p hp => by
      have := hpre (p + 1) (by simpa using hp)
      simpa [List.drop] using this) hcore

theorem matchCommitAt_sound (l : List Char) (g : CommitGroups)
    (h : matchCommitAt l = some g) :
    ∃ ws post : List Char,
      l = commitMarker ++ (ws ++ (litHeight ++ (g.heightDigits ++ (litHash ++ (g.hashHex ++
        (litRoot ++ (g.rootHex ++ (litNumTxs ++ (g.numTxsDigits ++ post))))))))) ∧
      ws ≠ [] ∧ (∀ c ∈ ws, goIsSpace c = true) ∧
      g.heightDigits ≠ [] ∧ (∀ c ∈ g.heightDigits, goIsDigit c = true) ∧
      g.hashHex ≠ [] ∧ (∀ c ∈ g.hashHex, goIsHexDigit c = true) ∧
      g.rootHex ≠ [] ∧ (∀ c ∈ g.rootHex, goIsHexDigit c = true) ∧
      g.numTxsDigits ≠ [] ∧ (∀ c ∈ g.numTxsDigits, goIsDigit c = true) := by
  rw [matchCommitAt] at h
  rw [Option.bind_eq_some] at h
  obtain ⟨r1, h1, h⟩ := h
  rw [Option.bind_eq_some] at h
  obtain ⟨wsp, h2, h⟩ := h
  rw [Option.bind_eq_some] at h
  obtain ⟨r2, h3, h⟩ := h
  rw [Option.bind_eq_some] at h
  obtain ⟨hdp, h4, h⟩ := h
  rw [Option.bind_eq_some] at h
  obtain ⟨r3, h5, h⟩ := h
  rw [Option.bind_eq_some] at h
  obtain ⟨hxp, h6, h⟩ := h
  rw [Option.bind_eq_some] at h
  obtain ⟨r4, h7, h⟩ := h
  rw [Option.bind_eq_some] at h
  obtain ⟨rtp, h8, h⟩ := h
  rw [Option.bind_eq_some] at h
  obtain ⟨r5, h9, h⟩ := h
  rw [Option.map_eq_some'] at h
  obtain ⟨ndp, h10, hg⟩ := h
  subst hg
  obtain ⟨e2, hws0, hws⟩ := takeWhile1_sound _ _ _ h2
  obtain ⟨e4, hhd0, hhd⟩ := takeWhile1_sound _ _ _ h4
  obtain ⟨e6, hhx0, hhx⟩ := takeWhile1_sound _ _ _ h6
  obtain ⟨e8, hrt0, hrt⟩ := takeWhile1_sound _ _ _ h8
  obtain ⟨e10, hnd0, hnd⟩ := takeWhile1_sound _ _ _ h10
  refine ⟨wsp.1, ndp.2, ?_, hws0, hws, hhd0, hhd, hhx0, hhx, hrt0, hrt, hnd0, hnd⟩
  rw [matchLit_sound _ _ _ h1, e2, matchLit_sound _ _ _ h3, e4, matchLit_sound _ _ _ h5,
    e6, matchLit_sound _ _ _ h7, e8, matchLit_sound _ _ _ h9, e10]

theorem findCommitMatch_sound :
    ∀ (l : List Char) (g : CommitGroups), findCommitMatch l = some g →
      ∃ pre rest : List Char, l = pre ++ rest ∧ matchCommitAt rest = some g := by
  intro l
  induction l with
  | nil => intro g h; cases h
  | cons c cs ih =>
    intro g h
    rw [findCommitMatch] at h
    cases hm : matchCommitAt (c :: cs) with
    | some g2 =>
      rw [hm] at h
      injection h with h
      exact ⟨[], c :: cs, rfl, by rw [hm, h]⟩
    | none =>
      rw [hm] at h
      obtain ⟨pre, rest, hl, hrest⟩ := ih g h
      exact ⟨c :: pre, rest, by rw [List.cons_append, ← hl], hrest⟩

theorem parseCommitLog_of_find (pod line : String) (g : CommitGroups)
    (hfind : findCommitMatch line.toList = some g)
    (h1 : digitsVal g.heightDigits ≤ maxGoInt) (h2 : digitsVal g.numTxsDigits ≤ maxGoInt) :
    parseCommitLog pod line =
      .ok { height := digitsVal g.heightDigits, hash := String.mk g.hashHex,
            root := String.mk g.rootHex, numTxs := digitsVal g.numTxsDigits,
            podName := pod } := by
  rw [parseCommitLog, hfind]
  simp only [goAtoiDigits, if_pos h1, if_pos h2]

theorem parseCommitLog_noMatch (pod line : String)
    (h : findCommitMatch line.toList = none) :
    parseCommitLog pod line = .error .noMatch := by
  rw [parseCommitLog, h]

theorem parseCommitLog_invalidHeight (pod line : String) (g : CommitGroups)
    (hfind : findCommitMatch line.toList = some g)
    (h1 : ¬ digitsVal g.heightDigits ≤ maxGoInt) :
    parseCommitLog pod line = .error .invalidHeight := by
  rw [parseCommitLog, hfind]
  simp only [goAtoiDigits, if_neg h1]

theorem parseCommitLog_invalidNumTxs (pod line : String) (g : CommitGroups)
    (hfind : findCommitMatch line.toList = some g)
    (h1 : digitsVal g.heightDigits ≤ maxGoInt)
    (h2 : ¬ digitsVal g.numTxsDigits ≤ maxGoInt) :
    parseCommitLog pod line = .error .invalidNumTxs := by
  rw [parseCommitLog, hfind]
  simp only [goAtoiDigits, if_pos h1, if_neg h2]

theorem matchesCommitGrammar_length (line : String) (h : matchesCommitGrammar line) :
    76 ≤ line.toList.length := by
  obtain ⟨pre, ws, hd, hx, rt, nd, post, hline, hws0, _, hhd0, _, hhx0, _, hrt0, _, hnd0, _⟩ := h
  rw [hline]
  simp only [List.length_append]
  have c1 : commitMarker.length = 26 := by decide
  have c2 : litHeight.length = 24 := by decide
  have c3 : litHash.length = 6 := by decide
  have c4 : litRoot.length = 6 := by decide
  have c5 : litNumTxs.length = 9 := by decide
  have w1 : 0 < ws.length := List.length_pos.2 hws0
  have w2 : 0 < hd.length := List.length_pos.2 hhd0
  have w3 : 0 < hx.length := List.length_pos.2 hhx0
  have w4 : 0 < rt.length := List.length_pos.2 hrt0
  have w5 : 0 < nd.length := List.length_pos.2 hnd0
  omega

/-! ## Claim C6 -/

/-- C6 counterexample: the line with a 20-digit height matches the
commit-line grammar of §6 (its height is a plain decimal numeral), yet the
extractor returns the `parsing height` failure — `strconv.Atoi` rejects
values beyond the 64-bit `int` range — so no `CommitEvent` with "exactly
the encoded height" is produced, and the failure is not `NoMatch`. -/
theorem c6_counterexample :
    matchesCommitGrammar
      "finalizing commit of block module=consensus height=99999999999999999999 hash=aa root=bb num_txs=1" ∧
    parseCommitLog "nodeA"
      "finalizing commit of block module=consensus height=99999999999999999999 hash=aa root=bb num_txs=1" =
      .error .invalidHeight := by
  constructor
  · exact ⟨[], [' '], "99999999999999999999".toList, "aa".toList, "bb".toList, ['1'], [],
      by decide, by decide, by decide, by decide, by decide, by decide, by decide,
      by decide, by decide, by decide, by decide⟩
  · decide

/-- C6 (amended): for every line containing the commit pattern — written as
the decomposition at the leftmost position where the whole pattern matches
(the pattern matches at no earlier position; a bare decoy marker in the
prefix is allowed), with the trailing digit group maximal (the tail does
not begin with a digit) — the extractor returns a `CommitEvent` carrying
exactly the encoded height, root and txCount when both numerals fit in a
64-bit signed `int`, the `parsing height` failure when the height numeral
is out of range, and the `parsing num_txs` failure when the height fits but
the num_txs numeral is out of range; and for every line not containing the
pattern at all, it returns the `NoMatch` failure and produces no event. -/
theorem c6_extractor_exact :
    (∀ (pod : String) (pre ws hd hx rt nd post : List Char),
      (∀ p, p < pre.length →
        matchCommitAt (List.drop p pre ++ commitMarker ++ ws ++ litHeight ++ hd ++
          litHash ++ hx ++ litRoot ++ rt ++ litNumTxs ++ nd ++ post) = none) →
      ws ≠ [] → (∀ c ∈ ws, goIsSpace c = true) →
      hd ≠ [] → (∀ c ∈ hd, goIsDigit c = true) →
      hx ≠ [] → (∀ c ∈ hx, goIsHexDigit c = true) →
      rt ≠ [] → (∀ c ∈ rt, goIsHexDigit c = true) →
      nd ≠ [] → (∀ c ∈ nd, goIsDigit c = true) →
      (∀ c, post.head? = some c → goIsDigit c = false) →
      parseCommitLog pod (String.mk (pre ++ commitMarker ++ ws ++ litHeight ++ hd ++
        litHash ++ hx ++ litRoot ++ rt ++ litNumTxs ++ nd ++ post)) =
        (if digitsVal hd ≤ maxGoInt then
          if digitsVal nd ≤ maxGoInt then
            .ok { height := digitsVal hd, hash := String.mk hx, root := String.mk rt,
                  numTxs := digitsVal nd, podName := pod }
          else .error .invalidNumTxs
        else .error .invalidHeight)) ∧
    (∀ (pod line : String), ¬ matchesCommitGrammar line →
      parseCommitLog pod line = .error .noMatch) := by
  constructor
  · intro pod pre ws hd hx rt nd post hpre hws0 hws hhd0 hhd hhx0 hhx hrt0 hrt hnd0 hnd
      hpost
    have hcomplete := matchCommitAt_complete ws hd hx rt nd post hws0 hws hhd0 hhd hhx0 hhx
      hrt0 hrt hnd0 hnd hpost
    have hfind : findCommitMatch (String.mk (pre ++ commitMarker ++ ws ++ litHeight ++ hd ++
        litHash ++ hx ++ litRoot ++ rt ++ litNumTxs ++ nd ++ post)).toList =
        some { heightDigits := hd, hashHex := hx, rootHex := rt, numTxsDigits := nd } := by
      show findCommitMatch (pre ++ commitMarker ++ ws ++ litHeight ++ hd ++
        litHash ++ hx ++ litRoot ++ rt ++ litNumTxs ++ nd ++ post) = _
      have hL : pre ++ commitMarker ++ ws ++ litHeight ++ hd ++ litHash ++ hx ++ litRoot ++
          rt ++ litNumTxs ++ nd ++ post =
          pre ++ (commitMarker ++ (ws ++ (litHeight ++ (hd ++ (litHash ++ (hx ++
            (litRoot ++ (rt ++ (litNumTxs ++ (nd ++ post)))))))))) := by
        simp [List.append_assoc]
      rw [hL]
      exact findCommitMatch_skip pre _ _
        (fun p hp => by
          have := hpre p hp
          simpa [List.append_assoc] using this)
        hcomplete
    by_cases hb1 : digitsVal hd ≤ maxGoInt
    · by_cases hb2 : digitsVal nd ≤ maxGoInt
      · rw [if_pos hb1, if_pos hb2]
        exact parseCommitLog_of_find pod _ _ hfind hb1 hb2
      · rw [if_pos hb1, if_neg hb2]
        exact parseCommitLog_invalidNumTxs pod _ _ hfind hb1 hb2
    · rw [if_neg hb1]
      exact parseCommitLog_invalidHeight pod _ _ hfind hb1
  · intro pod line hng
    cases hfind : findCommitMatch line.toList with
    | none => exact parseCommitLog_noMatch pod line hfind
    | some g =>
      exfalso
      obtain ⟨pre, rest, hl, hrest⟩ := findCommitMatch_sound line.toList g hfind
      obtain ⟨ws, post, hdec, hws0, hws, hhd0, hhd, hhx0, hhx, hrt0, hrt, hnd0, hnd⟩ :=
        matchCommitAt_sound rest g hrest
      exact hng ⟨pre, ws, g.heightDigits, g.hashHex, g.rootHex, g.numTxsDigits, post,
        by rw [hl, hdec]; simp [List.append_assoc],
        hws0, hws, hhd0, hhd, hhx0, hhx, hrt0, hrt, hnd0, hnd⟩

/-- C6 witness: the §8 example line yields exactly
`CommitEvent{height 42, root cafebabe, txCount 3}`; a line with a bare
decoy marker before the real pattern still yields the event encoded at the
leftmost full match; the 20-digit-height line yields the `parsing height`
failure; and the malformed line `height=42 root=cafebabe` yields the
`NoMatch` failure. -/
theorem c6_witness :
    parseCommitLog "nodeA"
      "finalizing commit of block module=consensus height=42 hash=deadbeef root=cafebabe num_txs=3" =
      .ok { height := 42, hash := "deadbeef", root := "cafebabe", numTxs := 3,
            podName := "nodeA" } ∧
    parseCommitLog "nodeA"
      "finalizing commit of block x finalizing commit of block module=consensus height=7 hash=a root=b num_txs=2" =
      .ok { height := 7, hash := "a", root := "b", numTxs := 2, podName := "nodeA" } ∧
    parseCommitLog "nodeA"
      "finalizing commit of block module=consensus height=99999999999999999999 hash=aa root=bb num_txs=1" =
      .error .invalidHeight ∧
    parseCommitLog "nodeA" "height=42 root=cafebabe" = .error .noMatch := by
  refine ⟨?_, ?_, ?_, ?_⟩
  · have h := c6_extractor_exact.1 "nodeA" [] (" ".toList) ("42".toList) ("deadbeef".toList)
      ("cafebabe".toList) ("3".toList) []
      (fun p hp => absurd hp (by simp)) (by decide) (by decide) (by decide) (by decide)
      (by decide) (by decide) (by decide) (by decide) (by decide) (by decide)
      (fun c hc => by simp at hc)
    have e : String.mk (([] : List Char) ++ commitMarker ++ " ".toList ++ litHeight ++
        "42".toList ++ litHash ++ "deadbeef".toList ++ litRoot ++ "cafebabe".toList ++
        litNumTxs ++ "3".toList ++ ([] : List Char)) =
        "finalizing commit of block module=consensus height=42 hash=deadbeef root=cafebabe num_txs=3" := by
      decide
    rw [← e, h]
    decide
  · have h := c6_extractor_exact.1 "nodeA" ("finalizing commit of block x ".toList)
      (" ".toList) ("7".toList) ("a".toList) ("b".toList) ("2".toList) []
      (by decide) (by decide) (by decide) (by decide) (by decide)
      (by decide) (by decide) (by decide) (by decide) (by decide) (by decide)
      (fun c hc => by simp at hc)
    have e : String.mk ("finalizing commit of block x ".toList ++ commitMarker ++
        " ".toList ++ litHeight ++ "7".toList ++ litHash ++ "a".toList ++ litRoot ++
        "b".toList ++ litNumTxs ++ "2".toList ++ ([] : List Char)) =
        "finalizing commit of block x finalizing commit of block module=consensus height=7 hash=a root=b num_txs=2" := by
      decide
    rw [← e, h]
    decide
  · have h := c6_extractor_exact.1 "nodeA" [] (" ".toList)
      ("99999999999999999999".toList) ("aa".toList) ("bb".toList) ("1".toList) []
      (fun p hp => absurd hp (by simp)) (by decide) (by decide) (by decide) (by decide)
      (by decide) (by decide) (by decide) (by decide) (by decide) (by decide)
      (fun c hc => by simp at hc)
    have e : String.mk (([] : List Char) ++ commitMarker ++ " ".toList ++ litHeight ++
        "99999999999999999999".toList ++ litHash ++ "aa".toList ++ litRoot ++ "bb".toList ++
        litNumTxs ++ "1".toList ++ ([] : List Char)) =
        "finalizing commit of block module=consensus height=99999999999999999999 hash=aa root=bb num_txs=1" := by
      decide
    rw [← e, h]
    decide
  · refine c6_extractor_exact.2 "nodeA" _ (fun hg => ?_)
    have hlen := matchesCommitGrammar_length _ hg
    revert hlen
    decide
